import Mathlib

/-!
Shallow embedding of the `filecache` library (package `filecache`): a hybrid
memory/disk cache.  Items are kept in an in-memory mapping (`items`), spilled
to a sharded on-disk layout (`disk`, a finite map from file path to file), and
expired by a memory timer and a disk timer.  Durations and instants are
modelled as `Int` (Go `time.Duration` / `time.Time` nanoseconds); byte slices
as `List Nat`; Go `nil` values as `Option`.  The md5 digest used for path
sharding (Go `crypto/md5`, an external library) is a table parameter
`hash : String -> Bytes`; everything proved about paths holds for every hash
function.  Callbacks (`addItem`, `deleteItem`, `aboutToExpire`) only observe
items, so they are left out of the state; the mutex-guarded operations are
modelled as atomic state transformers.
-/

namespace Filecache

/-- Byte strings (Go `[]byte`); each entry is a byte value. -/
abbrev Bytes := List Nat

/-- One persisted file: its content and its modification time
(Go `os.FileInfo.ModTime`). -/
structure DiskFile where
  content : Bytes
  modTime : Int
  deriving DecidableEq

/-- Lookup in a string-keyed association list, modelling a Go map read. -/
def mapLookup {α : Type} (l : List (String × α)) (k : String) : Option α :=
  (l.find? (fun p => p.1 == k)).map (fun p => p.2)

/-- Insert/overwrite in a string-keyed association list, modelling `m[k] = v`. -/
def mapInsert {α : Type} (k : String) (v : α) (l : List (String × α)) :
    List (String × α) :=
  (k, v) :: l.filter (fun p => p.1 != k)

/-- Removal from a string-keyed association list, modelling `delete(m, k)`. -/
def mapRemove {α : Type} (k : String) (l : List (String × α)) :
    List (String × α) :=
  l.filter (fun p => p.1 != k)

/-- CacheItem (item.go L10-19): an individual cache item.  `data` is the Go
`interface{}` value, `none` standing for `nil`. -/
structure CacheItem (Val : Type) where
  key : String
  data : Option Val
  lifeSpan : Int
  createdOn : Int
  accessedOn : Int
  accessCount : Int
  deriving DecidableEq

/-- NewCacheItem (item.go L21-32): both timestamps are stamped `now`. -/
def NewCacheItem {Val : Type} (now : Int) (key : String) (lifeSpan : Int)
    (data : Option Val) : CacheItem Val :=
  { key := key, data := data, lifeSpan := lifeSpan, createdOn := now,
    accessedOn := now, accessCount := 0 }

/-- NewCreatedCacheItem (item.go L34-44): the caller supplies `createdOn`
(the persisted file's modification time); `accessedOn` is `now`. -/
def NewCreatedCacheItem {Val : Type} (now : Int) (key : String) (lifeSpan : Int)
    (data : Option Val) (created : Int) : CacheItem Val :=
  { key := key, data := data, lifeSpan := lifeSpan, createdOn := created,
    accessedOn := now, accessCount := 0 }

/-- Characters prohibited anywhere in a key (item.go L58):
`/ \ < > : " | ? *` and NUL. -/
def forbiddenKeyChars : List Char :=
  ['/', '\\', '<', '>', ':', '"', '|', '?', '*', Char.ofNat 0]

/-- IsValid (item.go L54-61).  The Go receiver-nil check drops out (items are
values here); `key[0] != '.'` is the first character of a non-empty key, the
empty key having been excluded by the previous conjunct. -/
def CacheItem.IsValid {Val : Type} (item : CacheItem Val) : Bool :=
  item.key != "" &&
  item.key.data.headD '.' != '.' &&
  !(item.key.data.any (fun c => forbiddenKeyChars.contains c)) &&
  item.data.isSome &&
  decide (0 < item.lifeSpan)

/-- KeepAlive (item.go L63-68): bump `accessedOn` to now, increment the
access counter. -/
def CacheItem.KeepAlive {Val : Type} (item : CacheItem Val) (now : Int) :
    CacheItem Val :=
  { item with accessedOn := now, accessCount := item.accessCount + 1 }

/-- PathSeparator (part_001 L14): `string(os.PathSeparator)`, i.e. "/" on the
Unix targets this library runs on. -/
def PathSeparator : String := "/"

/-- Separator as a single character, for splitting. -/
def pathSepChar : Char := '/'

/-- Lowercase hex digit of a nibble, as produced by Go `encoding/hex`. -/
def hexDigitChar (n : Nat) : Char :=
  if n < 10 then Char.ofNat (48 + n) else Char.ofNat (97 + (n - 10))

/-- hex.EncodeToString: two lowercase hex digits per byte, high nibble
first. -/
def hexEncodeToString (bs : Bytes) : String :=
  String.mk (bs.foldr
    (fun b acc => hexDigitChar (b % 256 / 16) :: hexDigitChar (b % 16) :: acc)
    [])

/-- Go string slicing `s[i:j]` (on the ASCII hex strings it is applied to,
bytes and characters coincide). -/
def strSlice (s : String) (i j : Nat) : String :=
  String.mk ((s.data.drop i).take (j - i))

/-- The shared immutable configuration plus the mutable state of one
CacheTable (table.go L10-30).  `disk` is this table's slice of the
filesystem: path -> file.  `persistQueue` is the pending persistence
channel content.  Timers are modelled by an armed flag plus the cached
`cleanupInterval`. -/
structure CacheTable (Val : Type) where
  basePath : String
  expiryTime : Int
  toBytes : Option Val → Option Bytes
  fromBytes : Bytes → Option Val
  hash : String → Bytes
  dataLoader : Option (String → Option (CacheItem Val))
  items : List (String × CacheItem Val)
  disk : List (String × DiskFile)
  persistQueue : List (String × Bytes)
  cleanupInterval : Int
  cleanupTimerArmed : Bool
  diskExpiryTime : Int
  diskExpiryInterval : Int
  diskExpiryTimerArmed : Bool

variable {Val : Type}

/-- getPath (part_001 L17-22): directory is
`basePath / digest[0:1] / digest[1:3]`, file name is the key itself. -/
def CacheTable.getPath (t : CacheTable Val) (key : String) : String × String :=
  (t.basePath ++ PathSeparator
     ++ strSlice (hexEncodeToString (t.hash key)) 0 1 ++ PathSeparator
     ++ strSlice (hexEncodeToString (t.hash key)) 1 3,
   key)

/-- getFilePath (part_001 L24-27). -/
def CacheTable.getFilePath (t : CacheTable Val) (key : String) : String :=
  (t.getPath key).1 ++ PathSeparator ++ (t.getPath key).2

/-- Leftmost split of a character list at `sep`, or `none` when `sep` does
not occur. -/
def splitOnce (sep : Char) : List Char → Option (List Char × List Char)
  | [] => none
  | c :: cs =>
    if c = sep then some ([], cs)
    else
      match splitOnce sep cs with
      | none => none
      | some (a, b) => some (c :: a, b)

/-- Go `strings.SplitN(s, sep, n)` for a one-character separator and `n > 0`:
at most `n` pieces, the last being the unsplit remainder. -/
def splitN (sep : Char) : Nat → List Char → List (List Char)
  | 0, _ => []
  | 1, cs => [cs]
  | n + 2, cs =>
    match splitOnce sep cs with
    | none => [cs]
    | some (a, b) => a :: splitN sep (n + 1) b

/-- Key reconstruction done by walk (part_001 L34-36):
`strings.SplitN(path, PathSeparator, 3)` and, when that yields three pieces,
the third piece is taken as the key. -/
def walkKeyOfPath (path : String) : Option String :=
  match splitN pathSepChar 3 path.data with
  | [_, _, k] => some (String.mk k)
  | _ => none

/-- walk (part_001 L31-43): visit every regular file of this table (the
`disk` map holds exactly the regular files under `basePath`; directories,
which Go's `filepath.Walk` also visits, are skipped by the `!info.IsDir()`
guard and hence not modelled), threading a state through the visitor.  The
visitor receives the reconstructed key, the path and the file. -/
def CacheTable.walk {σ : Type} (t : CacheTable Val)
    (f : σ → String → String → DiskFile → σ) (s : σ) : σ :=
  List.foldl
    (fun acc p =>
      match walkKeyOfPath p.1 with
      | some key => f acc key p.1 p.2
      | none => acc)
    s t.disk

/-- Keys and modification times handed to a walk visitor, in visit order
(used by ForeachDisk-style enumeration and to state what walk reports). -/
def CacheTable.walkEntries (t : CacheTable Val) : List (String × Int) :=
  t.walk (fun acc key _path file => acc ++ [(key, file.modTime)]) []

/-- Remaining life of an item at `now`: `lifeSpan - (now - accessedOn)`,
the quantity the memory-expiry scan compares against zero. -/
def remaining (now : Int) (item : CacheItem Val) : Int :=
  item.lifeSpan - (now - item.accessedOn)

/-- Retention test of the expireMemory scan (part_000 L121-126): items with
zero lifespan are skipped (kept); an item is deleted when
`now - accessedOn >= lifeSpan`. -/
def keepPred (now : Int) (p : String × CacheItem Val) : Bool :=
  p.2.lifeSpan == 0 || decide (now - p.2.accessedOn < p.2.lifeSpan)

/-- Accumulation of `smallestDuration` (part_000 L128-130), folded over the
retained items in scan order. -/
def smallestStep (now : Int) (s : Int) (p : String × CacheItem Val) : Int :=
  if p.2.lifeSpan == 0 then s
  else if s == 0 || decide (p.2.lifeSpan - (now - p.2.accessedOn) < s) then
    p.2.lifeSpan - (now - p.2.accessedOn)
  else s

/-- expireMemory (part_000 L106-140): stop the timer, delete every item whose
lifespan is non-zero and elapsed, record the smallest remaining duration of
the survivors in `cleanupInterval`, and re-arm the timer exactly when that
duration is positive. -/
def CacheTable.expireMemory (t : CacheTable Val) (now : Int) : CacheTable Val :=
  { t with
    items := t.items.filter (keepPred now),
    cleanupInterval := List.foldl (smallestStep now) 0 (t.items.filter (keepPred now)),
    cleanupTimerArmed :=
      decide (0 < List.foldl (smallestStep now) 0 (t.items.filter (keepPred now))) }

/-- delete (table.go L216-242): remove the key from the in-memory mapping
(the callback dance around the lock only affects when callbacks run; the
mapping ends up without the key either way). -/
def CacheTable.delete (t : CacheTable Val) (key : String) : CacheTable Val :=
  { t with items := mapRemove key t.items }

/-- DeleteFromMemoryAndDisk (table.go L245-250): delete from memory, then
remove the file at the path derived from `key`. -/
def CacheTable.DeleteFromMemoryAndDisk (t : CacheTable Val) (key : String) :
    CacheTable Val :=
  { t.delete key with disk := mapRemove (t.getFilePath key) t.disk }

/-- persist (table.go L82-88), as completed by the background worker: write
the queued bytes to the sharded path; the file's modification time becomes
the write instant. -/
def CacheTable.persist (t : CacheTable Val) (e : String × Bytes) (now : Int) :
    CacheTable Val :=
  { t with disk := mapInsert (t.getFilePath e.1) (DiskFile.mk e.2 now) t.disk }

/-- Persistence step of add (table.go L163-166): enqueue a task only when the
serializer yields non-nil bytes. -/
def CacheTable.addPersist (t : CacheTable Val) (item : CacheItem Val) :
    CacheTable Val :=
  match t.toBytes item.data with
  | some b => { t with persistQueue := t.persistQueue ++ [(item.key, b)] }
  | none => t

/-- Expiry-scheduling step of add (table.go L158-161): re-evaluate the memory
timer when the new item has a positive lifespan that is more imminent than
the scheduled interval (or no sweep is scheduled). -/
def CacheTable.addExpire (t : CacheTable Val) (now : Int) (item : CacheItem Val) :
    CacheTable Val :=
  if 0 < item.lifeSpan ∧ (t.cleanupInterval = 0 ∨ item.lifeSpan < t.cleanupInterval) then
    t.expireMemory now
  else t

/-- add (table.go L144-169): store the item under its own key, run the
expiry re-evaluation, enqueue the persistence task, and return the item
(the Go method always returns its non-nil argument). -/
def CacheTable.add (t : CacheTable Val) (now : Int) (item : CacheItem Val) :
    CacheItem Val × CacheTable Val :=
  (item,
   (({ t with items := mapInsert item.key item t.items }).addExpire now item).addPersist
     item)

/-- AddExpiry (table.go L181-190): build the item, silently reject it when
invalid, otherwise insert via add. -/
def CacheTable.AddExpiry (t : CacheTable Val) (now : Int) (key : String)
    (lifeSpan : Int) (data : Option Val) :
    Option (CacheItem Val) × CacheTable Val :=
  if (NewCacheItem now key lifeSpan data : CacheItem Val).IsValid then
    ((t.add now (NewCacheItem now key lifeSpan data)).1,
     (t.add now (NewCacheItem now key lifeSpan data)).2)
  else (none, t)

/-- Add (table.go L174-176): AddExpiry at the table's default expiry time. -/
def CacheTable.Add (t : CacheTable Val) (now : Int) (key : String)
    (data : Option Val) : Option (CacheItem Val) × CacheTable Val :=
  t.AddExpiry now key t.expiryTime data

/-- NotFoundAddExpiry (table.go L198-214): under one lock acquisition, check
presence in memory then (on a memory miss) on disk via `os.Stat` of the
sharded path; if present in either, report false and change nothing;
otherwise insert the freshly built item via add — note the Go code performs
no `IsValid` check on this path, and `add` never returns nil, so the result
is true. -/
def CacheTable.NotFoundAddExpiry (t : CacheTable Val) (now : Int) (key : String)
    (lifeSpan : Int) (data : Option Val) : Bool × CacheTable Val :=
  if (mapLookup t.items key).isSome || (mapLookup t.disk (t.getFilePath key)).isSome then
    (false, t)
  else
    (true, (t.add now (NewCacheItem now key lifeSpan data)).2)

/-- NotFoundAdd (table.go L193-195): NotFoundAddExpiry at the table's default
expiry time. -/
def CacheTable.NotFoundAdd (t : CacheTable Val) (now : Int) (key : String)
    (data : Option Val) : Bool × CacheTable Val :=
  t.NotFoundAddExpiry now key t.expiryTime data

/-- diskLoader (table.go L91-114): open the sharded file (absent file or read
error yields nil), deserialize, and on a non-nil value build an item whose
`createdOn` is the file's modification time and whose lifespan is the
table's default. -/
def CacheTable.diskLoader (t : CacheTable Val) (now : Int) (key : String) :
    Option (CacheItem Val) :=
  match mapLookup t.disk (t.getFilePath key) with
  | none => none
  | some file =>
    match t.fromBytes file.content with
    | some val => some (NewCreatedCacheItem now key t.expiryTime (some val) file.modTime)
    | none => none

/-- Get (table.go L287-310): memory hit keeps the item alive and returns it;
otherwise try the disk loader, then (only when the disk yielded nothing) the
optional data loader; a non-nil, valid item from either is inserted via add
and returned; everything else is the not-found error (`none` here). -/
def CacheTable.Get (t : CacheTable Val) (now : Int) (key : String) :
    Option (CacheItem Val) × CacheTable Val :=
  match mapLookup t.items key with
  | some r =>
    (some (r.KeepAlive now), { t with items := mapInsert key (r.KeepAlive now) t.items })
  | none =>
    match t.diskLoader now key, t.dataLoader with
    | some i, _ =>
      if i.IsValid then (some (t.add now i).1, (t.add now i).2) else (none, t)
    | none, some dl =>
      match dl key with
      | some i =>
        if i.IsValid then (some (t.add now i).1, (t.add now i).2) else (none, t)
      | none => (none, t)
    | none, none => (none, t)

/-- flushMemory (part_000 L217-221): fresh empty mapping, zero cleanup
interval, memory timer stopped. -/
def CacheTable.flushMemory (t : CacheTable Val) : CacheTable Val :=
  { t with items := [], cleanupInterval := 0, cleanupTimerArmed := false }

/-- ExpireDiskMaxAge (part_000 L156-179): negate a positive max-age, compute
the cutoff, walk the files and, for each one modified strictly before the
cutoff, count it and run DeleteFromMemoryAndDisk on the walk-reconstructed
key; the disk-expiry timer is re-armed on the way out regardless. -/
def CacheTable.ExpireDiskMaxAge (t : CacheTable Val) (now maxAge : Int) :
    Nat × CacheTable Val :=
  let expireTime := now + (if 0 < maxAge then -maxAge else maxAge)
  let r := t.walk
    (fun (acc : Nat × CacheTable Val) key _path file =>
      if file.modTime < expireTime then (acc.1 + 1, acc.2.DeleteFromMemoryAndDisk key)
      else acc)
    (0, t)
  (r.1, { r.2 with diskExpiryTimerArmed := true })

/-- loadCache (part_001 L45-70): walk the files; each one young enough (or
all of them when maxAge is zero) is re-read through diskLoader under the
walk-reconstructed key and stored directly in the mapping; afterwards the
disk timer is re-armed and one memory-expiry evaluation runs. -/
def CacheTable.loadCache (t : CacheTable Val) (now maxAge : Int) : CacheTable Val :=
  let loadTime := now + (if 0 < maxAge then -maxAge else maxAge)
  let t1 := t.walk
    (fun (acc : CacheTable Val) key _path file =>
      if maxAge = 0 ∨ loadTime < file.modTime then
        match acc.diskLoader now key with
        | some item => { acc with items := mapInsert key item acc.items }
        | none => acc
      else acc)
    t
  ({ t1 with diskExpiryTimerArmed := true }).expireMemory now


/-- Invariant of the in-memory mapping: every stored item's own key field
equals the key it is stored under. -/
def keysConsistent (items : List (String × CacheItem Val)) : Bool :=
  items.all (fun p => p.2.key == p.1)

/-- On-disk layout in the words of the specification (section 6):
`base / hexDigest[0:1] / hexDigest[1:3] / key` — the first hex character
names the first shard directory, the next two the second, and the file name
is the literal key. -/
def specFilePath (base : String) (hexDigest : String) (key : String) : String :=
  base ++ PathSeparator ++ String.mk (hexDigest.data.take 1) ++ PathSeparator
    ++ String.mk ((hexDigest.data.drop 1).take 2) ++ PathSeparator ++ key

/-! Concrete scenario data used by counterexamples and witnesses. -/

/-- Hash function for generic witnesses: a constant 16-byte digest. -/
def zeroHash : String → Bytes := fun _ => List.replicate 16 0

/-- The actual md5 digest of the three-byte string "key":
3c6e0b8a9c15224a8228b9a98ca1531d. -/
def md5KeyDigest : Bytes :=
  [60, 110, 11, 138, 156, 21, 34, 74, 130, 40, 185, 169, 140, 161, 83, 29]

def cBasePath : String := "cache/t"

def cKeyK : String := "k"

def cKeyKey : String := "key"

def cWrongKey : String := "3/c6/key"

def cKeyA : String := "a"

def cKeyB : String := "b"

def cKeyC : String := "c"

def cKeyD : String := "d"

/-- A started, empty table over Nat values with default-like configuration;
the serializer wraps the value in a singleton byte string, the deserializer
reads it back. -/
def emptyTableN : CacheTable Nat :=
  { basePath := cBasePath, expiryTime := 10,
    toBytes := fun v => v.map (fun n => [n]),
    fromBytes := fun b => some (b.headD 0),
    hash := zeroHash, dataLoader := none,
    items := [], disk := [], persistQueue := [],
    cleanupInterval := 0, cleanupTimerArmed := false,
    diskExpiryTime := 86400, diskExpiryInterval := 3600,
    diskExpiryTimerArmed := true }

/-- Table whose serializer always fails (returns nil), for the C9 witness. -/
def c9Table : CacheTable Nat := { emptyTableN with toBytes := fun _ => none }

def c9Item : CacheItem Nat := NewCacheItem 0 cKeyK 5 (some 1)

/-- Items of assorted lifespans for the memory-expiry scenario, scanned at
now = 100: "a" (TTL 10) is expired, "b" (TTL 300) and "d" (TTL 150) survive,
"c" (TTL 0) never expires in memory. -/
def c2ItemA : CacheItem Nat := NewCacheItem 0 cKeyA 10 (some 1)

def c2ItemB : CacheItem Nat := NewCacheItem 0 cKeyB 300 (some 2)

def c2ItemC : CacheItem Nat := NewCacheItem 0 cKeyC 0 (some 3)

def c2ItemD : CacheItem Nat := NewCacheItem 0 cKeyD 150 (some 4)

def c2Table : CacheTable Nat :=
  { emptyTableN with items :=
      [(cKeyA, c2ItemA), (cKeyB, c2ItemB), (cKeyC, c2ItemC), (cKeyD, c2ItemD)] }

/-- Table using the real md5 digest of "key" for that key. -/
def c3Table : CacheTable Nat := { emptyTableN with hash := fun _ => md5KeyDigest }

def c3Bytes : Bytes := [1]

/-- State after the persistence worker wrote key "key" at time 100: one file
at `cache/t/3/c6/key`. -/
def c3Stored : CacheTable Nat := c3Table.persist (cKeyKey, c3Bytes) 100

/-- C7 scenario: file for "key" written at time 0, the same key resident in
memory. -/
def c7Item : CacheItem Nat := NewCacheItem 0 cKeyKey 10 (some 1)

def c7Table : CacheTable Nat :=
  { c3Table.persist (cKeyKey, c3Bytes) 0 with items := [(cKeyKey, c7Item)] }

/-- C4 counterexample table: default (zero) memory expiry time, the key on
disk with deserializable content, absent from memory, no data loader. -/
def c4Table : CacheTable Nat :=
  { c3Table.persist (cKeyKey, c3Bytes) 0 with expiryTime := 0 }

/-- C4 witness table: one item in memory. -/
def c4wItem : CacheItem Nat := NewCacheItem 0 cKeyK 10 (some 7)

def c4wTable : CacheTable Nat := { emptyTableN with items := [(cKeyK, c4wItem)] }

def c10Item : CacheItem Nat := NewCacheItem 0 cKeyK 5 (some 1)

/-! Frame and lookup helper lemmas shared by several claim theorems. -/

theorem mapLookup_insert_self {α : Type} (k : String) (v : α)
    (l : List (String × α)) : mapLookup (mapInsert k v l) k = some v := by
  simp [mapLookup, mapInsert, List.find?]

theorem mapLookup_mem {α : Type} {l : List (String × α)} {k : String} {v : α}
    (h : mapLookup l k = some v) : (k, v) ∈ l := by
  unfold mapLookup at h
  cases hf : l.find? (fun p => p.1 == k) with
  | none => rw [hf] at h; simp at h
  | some p =>
    rw [hf] at h
    have hm := List.mem_of_find?_eq_some hf
    have hp := List.find?_some hf
    obtain ⟨a, b⟩ := p
    simp at h hp
    subst h hp
    exact hm

theorem mapLookup_filter_head {α : Type} (q : String × α → Bool) (k : String)
    (v : α) (l : List (String × α)) (h : q (k, v) = true) :
    mapLookup (((k, v) :: l).filter q) k = some v := by
  simp [List.filter_cons, h, mapLookup, List.find?]

theorem addPersist_items (t : CacheTable Val) (item : CacheItem Val) :
    (t.addPersist item).items = t.items := by
  unfold CacheTable.addPersist
  split <;> rfl

theorem addPersist_disk (t : CacheTable Val) (item : CacheItem Val) :
    (t.addPersist item).disk = t.disk := by
  unfold CacheTable.addPersist
  split <;> rfl

theorem addExpire_disk (t : CacheTable Val) (now : Int) (item : CacheItem Val) :
    (t.addExpire now item).disk = t.disk := by
  unfold CacheTable.addExpire
  split <;> rfl

theorem addExpire_queue (t : CacheTable Val) (now : Int) (item : CacheItem Val) :
    (t.addExpire now item).persistQueue = t.persistQueue := by
  unfold CacheTable.addExpire
  split <;> rfl

/-- Queue effect of add when the serializer yields bytes. -/
theorem add_queue_some (t : CacheTable Val) (now : Int) (item : CacheItem Val)
    (b : Bytes) (h : t.toBytes item.data = some b) :
    (t.add now item).2.persistQueue = t.persistQueue ++ [(item.key, b)] := by
  unfold CacheTable.add CacheTable.addPersist
  have ht : (({ t with items := mapInsert item.key item t.items }).addExpire now item).toBytes
      = t.toBytes := by
    unfold CacheTable.addExpire
    split <;> rfl
  rw [ht, h]
  simp [addExpire_queue]

/-- Queue effect of add when the serializer yields nil. -/
theorem add_queue_none (t : CacheTable Val) (now : Int) (item : CacheItem Val)
    (h : t.toBytes item.data = none) :
    (t.add now item).2.persistQueue = t.persistQueue := by
  unfold CacheTable.add CacheTable.addPersist
  have ht : (({ t with items := mapInsert item.key item t.items }).addExpire now item).toBytes
      = t.toBytes := by
    unfold CacheTable.addExpire
    split <;> rfl
  rw [ht, h]
  simp [addExpire_queue]

theorem add_disk (t : CacheTable Val) (now : Int) (item : CacheItem Val) :
    (t.add now item).2.disk = t.disk := by
  unfold CacheTable.add
  rw [addPersist_disk, addExpire_disk]

/-- Lookup of a just-added item: it is stored under its own key and, when the
insertion triggers a memory-expiry evaluation, it survives it because it is
not yet expired. -/
theorem add_lookup (t : CacheTable Val) (now : Int) (item : CacheItem Val)
    (h : item.lifeSpan ≤ 0 ∨ now - item.accessedOn < item.lifeSpan) :
    mapLookup (t.add now item).2.items item.key = some item := by
  unfold CacheTable.add
  rw [addPersist_items]
  unfold CacheTable.addExpire
  split
  · next hc =>
    have hlt : now - item.accessedOn < item.lifeSpan := by
      rcases h with h1 | h2
      · exact absurd hc.1 (by omega)
      · exact h2
    have hk : keepPred now (item.key, item) = true := by
      simp [keepPred, hlt]
    show mapLookup ((mapInsert item.key item t.items).filter (keepPred now))
        item.key = some item
    rw [mapInsert]
    exact mapLookup_filter_head _ _ _ _ hk
  · exact mapLookup_insert_self _ _ _

/-- Memory-hit branch of Get: a key present in the mapping is returned after
KeepAlive. -/
theorem get_mem_hit (t : CacheTable Val) (now : Int) (key : String)
    (r : CacheItem Val) (hm : mapLookup t.items key = some r) :
    (t.Get now key).1 = some (r.KeepAlive now) := by
  unfold CacheTable.Get
  rw [hm]

/-- Field shape of an item produced by the disk loader. -/
theorem diskLoader_fields (t : CacheTable Val) (now : Int) (key : String)
    (i : CacheItem Val) (h : t.diskLoader now key = some i) :
    i.key = key ∧ i.accessedOn = now ∧ i.lifeSpan = t.expiryTime := by
  unfold CacheTable.diskLoader at h
  cases hd : mapLookup t.disk (t.getFilePath key) with
  | none => rw [hd] at h; simp at h
  | some file =>
    rw [hd] at h
    cases hv : t.fromBytes file.content with
    | none => simp [hv] at h
    | some val =>
      simp [hv] at h
      subst h
      exact ⟨rfl, rfl, rfl⟩


/-! Claim C1. -/

/-- C1 counterexample: NotFoundAddExpiry performs no validity check — on an
absent key it inserts an item that is invalid (nil data) and reports true,
changing the table state, contradicting the claim that every public add path
silently rejects invalid items and leaves the state unchanged. -/
theorem notFoundAdd_inserts_invalid :
    (emptyTableN.NotFoundAddExpiry 0 cKeyK 5 none).1 = true ∧
    (NewCacheItem 0 cKeyK 5 (none : Option Nat)).IsValid = false ∧
    mapLookup (emptyTableN.NotFoundAddExpiry 0 cKeyK 5 none).2.items cKeyK =
      some (NewCacheItem 0 cKeyK 5 none) := by
  refine ⟨by decide, by decide, by decide⟩

/-- C1 (amended): Add/AddExpiry insert an item only if it is valid, an
invalid item being silently rejected (no item returned) with the table state
unchanged; NotFoundAdd/NotFoundAddExpiry however check only absence — when
the key is present in memory or on disk they return false and change
nothing, and when it is absent from both they insert the freshly built item
and return true even if that item is invalid. -/
theorem addPath_validity (t : CacheTable Val) (now : Int) (key : String)
    (lifeSpan : Int) (data : Option Val)
    (h : (NewCacheItem now key lifeSpan data : CacheItem Val).IsValid = false) :
    t.AddExpiry now key lifeSpan data = (none, t) ∧
    ((mapLookup t.items key).isSome = true ∨
        (mapLookup t.disk (t.getFilePath key)).isSome = true →
      t.NotFoundAddExpiry now key lifeSpan data = (false, t)) ∧
    (mapLookup t.items key = none → mapLookup t.disk (t.getFilePath key) = none →
      (t.NotFoundAddExpiry now key lifeSpan data).1 = true ∧
      mapLookup (t.NotFoundAddExpiry now key lifeSpan data).2.items key =
        some (NewCacheItem now key lifeSpan data)) := by
  refine ⟨?_, ?_, ?_⟩
  · unfold CacheTable.AddExpiry
    rw [h]
    rfl
  · intro hpresent
    unfold CacheTable.NotFoundAddExpiry
    have hb : ((mapLookup t.items key).isSome
        || (mapLookup t.disk (t.getFilePath key)).isSome) = true := by
      rcases hpresent with h1 | h1 <;> simp [h1]
    rw [if_pos hb]
  · intro hmem hdisk
    unfold CacheTable.NotFoundAddExpiry
    have hb : ((mapLookup t.items key).isSome
        || (mapLookup t.disk (t.getFilePath key)).isSome) = false := by
      simp [hmem, hdisk]
    rw [if_neg (by simp [hb])]
    have hsurv := add_lookup t now (NewCacheItem now key lifeSpan data)
      (by unfold NewCacheItem; simp; omega)
    exact ⟨rfl, by simpa [NewCacheItem] using hsurv⟩

/-- C1 witness: a concrete invalid insertion through AddExpiry is rejected
with the table unchanged. -/
theorem addPath_validity_witness :
    emptyTableN.AddExpiry 0 cKeyK 5 (none : Option Nat) = (none, emptyTableN) :=
  (addPath_validity emptyTableN 0 cKeyK 5 none (by decide)).1

/-! Claim C9. -/

/-- C9: when the serializer returns nil for the item's value, add still
stores the item in the in-memory mapping and returns it, but enqueues no
persistence task — the queue and the disk are unchanged. -/
theorem add_serialize_nil_frame (t : CacheTable Val) (now : Int)
    (item : CacheItem Val) (hser : t.toBytes item.data = none)
    (hacc : item.accessedOn = now) :
    (t.add now item).1 = item ∧
    mapLookup (t.add now item).2.items item.key = some item ∧
    (t.add now item).2.persistQueue = t.persistQueue ∧
    (t.add now item).2.disk = t.disk := by
  refine ⟨rfl, ?_, add_queue_none t now item hser, add_disk t now item⟩
  exact add_lookup t now item (by omega)

/-- C9 witness at a concrete failing serializer. -/
theorem add_serialize_nil_frame_witness :
    (c9Table.add 0 c9Item).1 = c9Item ∧
    mapLookup (c9Table.add 0 c9Item).2.items c9Item.key = some c9Item ∧
    (c9Table.add 0 c9Item).2.persistQueue = c9Table.persistQueue ∧
    (c9Table.add 0 c9Item).2.disk = c9Table.disk :=
  add_serialize_nil_frame c9Table 0 c9Item rfl rfl

/-! Claim C5. -/

/-- C5: NotFoundAddExpiry checks absence of the key in memory and on disk in
one atomic step (one lock acquisition in the source); if the key is present
in either place it returns false and leaves the whole table state unchanged;
if it is absent from both it inserts the item, returns true, and the key
becomes retrievable by Get. -/
theorem notFoundAdd_spec (t : CacheTable Val) (now : Int) (key : String)
    (lifeSpan : Int) (data : Option Val) :
    ((mapLookup t.items key).isSome = true ∨
        (mapLookup t.disk (t.getFilePath key)).isSome = true →
      t.NotFoundAddExpiry now key lifeSpan data = (false, t)) ∧
    (mapLookup t.items key = none → mapLookup t.disk (t.getFilePath key) = none →
      (t.NotFoundAddExpiry now key lifeSpan data).1 = true ∧
      mapLookup (t.NotFoundAddExpiry now key lifeSpan data).2.items key =
        some (NewCacheItem now key lifeSpan data) ∧
      ((t.NotFoundAddExpiry now key lifeSpan data).2.Get now key).1 =
        some ((NewCacheItem now key lifeSpan data : CacheItem Val).KeepAlive now)) := by
  constructor
  · intro hpresent
    unfold CacheTable.NotFoundAddExpiry
    have hb : ((mapLookup t.items key).isSome
        || (mapLookup t.disk (t.getFilePath key)).isSome) = true := by
      rcases hpresent with h1 | h1 <;> simp [h1]
    rw [if_pos hb]
  · intro hmem hdisk
    have hb : ((mapLookup t.items key).isSome
        || (mapLookup t.disk (t.getFilePath key)).isSome) = false := by
      simp [hmem, hdisk]
    have hsurv := add_lookup t now (NewCacheItem now key lifeSpan data)
      (by unfold NewCacheItem; simp; omega)
    have hres : (t.NotFoundAddExpiry now key lifeSpan data).2 =
        (t.add now (NewCacheItem now key lifeSpan data)).2 := by
      unfold CacheTable.NotFoundAddExpiry
      rw [if_neg (by simp [hb])]
    have hlook : mapLookup (t.NotFoundAddExpiry now key lifeSpan data).2.items key =
        some (NewCacheItem now key lifeSpan data) := by
      rw [hres]
      simpa [NewCacheItem] using hsurv
    refine ⟨?_, hlook, ?_⟩
    · unfold CacheTable.NotFoundAddExpiry
      rw [if_neg (by simp [hb])]
    · exact get_mem_hit _ now key _ hlook

/-- C5 witness: on a fully absent key the concrete table reports an
insertion and the key is retrievable. -/
theorem notFoundAdd_spec_witness :
    (emptyTableN.NotFoundAddExpiry 0 cKeyK 5 (some 1)).1 = true ∧
    mapLookup (emptyTableN.NotFoundAddExpiry 0 cKeyK 5 (some 1)).2.items cKeyK =
      some (NewCacheItem 0 cKeyK 5 (some 1)) ∧
    ((emptyTableN.NotFoundAddExpiry 0 cKeyK 5 (some 1)).2.Get 0 cKeyK).1 =
      some ((NewCacheItem 0 cKeyK 5 (some 1) : CacheItem Nat).KeepAlive 0) :=
  (notFoundAdd_spec emptyTableN 0 cKeyK 5 (some 1)).2 rfl rfl

/-! Claim C6. -/

/-- C6: for a valid insertion, Add followed immediately by Get returns an
item carrying the inserted value whose access count is at least one. -/
theorem add_then_get (t : CacheTable Val) (now : Int) (key : String)
    (data : Option Val)
    (h : (NewCacheItem now key t.expiryTime data : CacheItem Val).IsValid = true) :
    (t.Add now key data).1 = some (NewCacheItem now key t.expiryTime data) ∧
    ((t.Add now key data).2.Get now key).1 =
      some ((NewCacheItem now key t.expiryTime data : CacheItem Val).KeepAlive now) ∧
    ((NewCacheItem now key t.expiryTime data : CacheItem Val).KeepAlive now).data
      = data ∧
    1 ≤ ((NewCacheItem now key t.expiryTime data : CacheItem Val).KeepAlive now).accessCount := by
  have hres : t.Add now key data =
      (some (t.add now (NewCacheItem now key t.expiryTime data)).1,
       (t.add now (NewCacheItem now key t.expiryTime data)).2) := by
    unfold CacheTable.Add CacheTable.AddExpiry
    rw [h]
    simp
  have hpos : 0 < (NewCacheItem now key t.expiryTime data : CacheItem Val).lifeSpan := by
    by_contra hneg
    unfold CacheItem.IsValid at h
    rw [decide_eq_false hneg] at h
    simp at h
  have hsurv := add_lookup t now (NewCacheItem now key t.expiryTime data)
    (Or.inr (by unfold NewCacheItem at hpos ⊢; simp at hpos ⊢; omega))
  refine ⟨by rw [hres]; rfl, ?_, rfl, ?_⟩
  · rw [hres]
    exact get_mem_hit _ now key _ (by simpa [NewCacheItem] using hsurv)
  · unfold NewCacheItem CacheItem.KeepAlive
    simp

/-- C6 witness at a concrete table, key and value. -/
theorem add_then_get_witness :
    (emptyTableN.Add 0 cKeyK (some 7)).1 =
      some (NewCacheItem 0 cKeyK emptyTableN.expiryTime (some 7)) ∧
    ((emptyTableN.Add 0 cKeyK (some 7)).2.Get 0 cKeyK).1 =
      some ((NewCacheItem 0 cKeyK emptyTableN.expiryTime (some 7) : CacheItem Nat).KeepAlive 0) ∧
    ((NewCacheItem 0 cKeyK emptyTableN.expiryTime (some 7) : CacheItem Nat).KeepAlive 0).data
      = some 7 ∧
    1 ≤ ((NewCacheItem 0 cKeyK emptyTableN.expiryTime (some 7) : CacheItem Nat).KeepAlive 0).accessCount :=
  add_then_get emptyTableN 0 cKeyK (some 7) (by decide)


/-! Claim C2: the memory-expiry evaluation. -/

/-- Behaviour of the smallestDuration fold started from a positive value:
the result stays positive, never exceeds the start value, bounds every
remaining life of a non-zero-TTL entry from below, and is either the start
value or one of those remaining lives. -/
theorem smallestFold_pos (now : Int) (l : List (String × CacheItem Val)) (s : Int)
    (hs : 0 < s) (hl : ∀ p ∈ l, p.2.lifeSpan ≠ 0 → 0 < remaining now p.2) :
    0 < List.foldl (smallestStep now) s l ∧
    List.foldl (smallestStep now) s l ≤ s ∧
    (∀ p ∈ l, p.2.lifeSpan ≠ 0 → List.foldl (smallestStep now) s l ≤ remaining now p.2) ∧
    (List.foldl (smallestStep now) s l = s ∨
      ∃ p ∈ l, p.2.lifeSpan ≠ 0 ∧ List.foldl (smallestStep now) s l = remaining now p.2) := by
  induction l generalizing s with
  | nil =>
    simp only [List.foldl_nil]
    refine ⟨hs, le_refl s, ?_, ?_⟩
    · intro p hp
      simp at hp
    · simp
  | cons q l ih =>
    simp only [List.foldl_cons]
    by_cases hq : q.2.lifeSpan = 0
    · have hstep : smallestStep now s q = s := by
        simp [smallestStep, hq]
      rw [hstep]
      obtain ⟨h1, h2, h3, h4⟩ := ih s hs (fun p hp hnz => hl p (List.mem_cons_of_mem _ hp) hnz)
      refine ⟨h1, h2, ?_, ?_⟩
      · intro p hp hnz
        rcases List.mem_cons.mp hp with heq | hp2
        · rw [heq] at hnz; exact absurd hq hnz
        · exact h3 p hp2 hnz
      · rcases h4 with he | ⟨p, hp, hnz, he⟩
        · exact Or.inl he
        · exact Or.inr ⟨p, List.mem_cons_of_mem _ hp, hnz, he⟩
    · have hrq : 0 < remaining now q.2 := hl q (List.mem_cons_self _ _) hq
      have hqb : (q.2.lifeSpan == 0) = false := by simp [hq]
      have hsb : (s == 0) = false := by simp; omega
      by_cases hlt : q.2.lifeSpan - (now - q.2.accessedOn) < s
      · have hstep : smallestStep now s q = remaining now q.2 := by
          simp [smallestStep, hqb, hsb, hlt, remaining]
        rw [hstep]
        obtain ⟨h1, h2, h3, h4⟩ := ih (remaining now q.2) hrq
          (fun p hp hnz => hl p (List.mem_cons_of_mem _ hp) hnz)
        refine ⟨h1, ?_, ?_, ?_⟩
        · have hle : remaining now q.2 ≤ s := by unfold remaining; omega
          omega
        · intro p hp hnz
          rcases List.mem_cons.mp hp with heq | hp2
          · rw [heq]; exact h2
          · exact h3 p hp2 hnz
        · rcases h4 with he | ⟨p, hp, hnz, he⟩
          · exact Or.inr ⟨q, List.mem_cons_self _ _, hq, he⟩
          · exact Or.inr ⟨p, List.mem_cons_of_mem _ hp, hnz, he⟩
      · have hstep : smallestStep now s q = s := by
          simp [smallestStep, hqb, hsb, hlt, remaining]
        rw [hstep]
        obtain ⟨h1, h2, h3, h4⟩ := ih s hs (fun p hp hnz => hl p (List.mem_cons_of_mem _ hp) hnz)
        refine ⟨h1, h2, ?_, ?_⟩
        · intro p hp hnz
          rcases List.mem_cons.mp hp with heq | hp2
          · rw [heq]
            have hle : s ≤ remaining now q.2 := by unfold remaining; omega
            omega
          · exact h3 p hp2 hnz
        · rcases h4 with he | ⟨p, hp, hnz, he⟩
          · exact Or.inl he
          · exact Or.inr ⟨p, List.mem_cons_of_mem _ hp, hnz, he⟩

/-- Behaviour of the smallestDuration fold started from zero (as in the
source): it stays zero exactly when every entry has zero TTL, and otherwise
it is the minimum remaining life of the non-zero-TTL entries. -/
theorem smallestFold_zero (now : Int) (l : List (String × CacheItem Val))
    (hl : ∀ p ∈ l, p.2.lifeSpan ≠ 0 → 0 < remaining now p.2) :
    (List.foldl (smallestStep now) 0 l = 0 ∧ ∀ p ∈ l, p.2.lifeSpan = 0) ∨
    (0 < List.foldl (smallestStep now) 0 l ∧
     (∀ p ∈ l, p.2.lifeSpan ≠ 0 → List.foldl (smallestStep now) 0 l ≤ remaining now p.2) ∧
     ∃ p ∈ l, p.2.lifeSpan ≠ 0 ∧ List.foldl (smallestStep now) 0 l = remaining now p.2) := by
  induction l with
  | nil => left; simp
  | cons q l ih =>
    simp only [List.foldl_cons]
    by_cases hq : q.2.lifeSpan = 0
    · have hstep : smallestStep now 0 q = 0 := by simp [smallestStep, hq]
      rw [hstep]
      rcases ih (fun p hp hnz => hl p (List.mem_cons_of_mem _ hp) hnz) with
        ⟨h0, hall⟩ | ⟨h1, h2, h3⟩
      · left
        refine ⟨h0, ?_⟩
        intro p hp
        rcases List.mem_cons.mp hp with heq | hp2
        · rw [heq]; exact hq
        · exact hall p hp2
      · right
        refine ⟨h1, ?_, ?_⟩
        · intro p hp hnz
          rcases List.mem_cons.mp hp with heq | hp2
          · rw [heq] at hnz; exact absurd hq hnz
          · exact h2 p hp2 hnz
        · obtain ⟨p, hp, hnz, he⟩ := h3
          exact ⟨p, List.mem_cons_of_mem _ hp, hnz, he⟩
    · have hrq : 0 < remaining now q.2 := hl q (List.mem_cons_self _ _) hq
      have hqb : (q.2.lifeSpan == 0) = false := by simp [hq]
      have hstep : smallestStep now 0 q = remaining now q.2 := by
        simp [smallestStep, hqb, remaining]
      rw [hstep]
      obtain ⟨h1, h2, h3, h4⟩ := smallestFold_pos now l (remaining now q.2) hrq
        (fun p hp hnz => hl p (List.mem_cons_of_mem _ hp) hnz)
      right
      refine ⟨h1, ?_, ?_⟩
      · intro p hp hnz
        rcases List.mem_cons.mp hp with heq | hp2
        · rw [heq]; exact h2
        · exact h3 p hp2 hnz
      · rcases h4 with he | ⟨p, hp, hnz, he⟩
        · exact ⟨q, List.mem_cons_self _ _, hq, he⟩
        · exact ⟨p, List.mem_cons_of_mem _ hp, hnz, he⟩

/-- C2: a memory-expiry evaluation deletes exactly the in-memory items with
non-zero TTL whose remaining life is ≤ 0 (items with zero TTL or positive
remaining life are retained, nothing is added), and afterwards the memory
timer is armed exactly when an item with positive TTL remains, in which case
the recorded interval is exactly the minimum positive remaining life. -/
theorem expireMemory_spec (t : CacheTable Val) (now : Int)
    (h : ∀ p ∈ t.items, p.2.accessedOn ≤ now) :
    (∀ p ∈ t.items,
       (p ∈ (t.expireMemory now).items ↔ p.2.lifeSpan = 0 ∨ 0 < remaining now p.2)) ∧
    (∀ p ∈ (t.expireMemory now).items, p ∈ t.items) ∧
    ((t.expireMemory now).cleanupTimerArmed = true ↔
       ∃ p ∈ (t.expireMemory now).items, 0 < p.2.lifeSpan) ∧
    (∀ p ∈ (t.expireMemory now).items, 0 < p.2.lifeSpan →
       (t.expireMemory now).cleanupInterval ≤ remaining now p.2) ∧
    ((t.expireMemory now).cleanupTimerArmed = true →
       ∃ p ∈ (t.expireMemory now).items, 0 < p.2.lifeSpan ∧
         (t.expireMemory now).cleanupInterval = remaining now p.2) := by
  have hitems : (t.expireMemory now).items = t.items.filter (keepPred now) := rfl
  have hci : (t.expireMemory now).cleanupInterval =
      List.foldl (smallestStep now) 0 (t.items.filter (keepPred now)) := rfl
  have harm : (t.expireMemory now).cleanupTimerArmed =
      decide (0 < List.foldl (smallestStep now) 0 (t.items.filter (keepPred now))) := rfl
  have hkpos : ∀ p ∈ t.items.filter (keepPred now),
      p.2.lifeSpan ≠ 0 → 0 < remaining now p.2 := by
    intro p hp hnz
    have hk := (List.mem_filter.mp hp).2
    unfold keepPred at hk
    simp [hnz] at hk
    unfold remaining
    omega
  have hkposTTL : ∀ p ∈ t.items.filter (keepPred now),
      p.2.lifeSpan ≠ 0 → 0 < p.2.lifeSpan := by
    intro p hp hnz
    have h1 := h p (List.mem_filter.mp hp).1
    have hk := (List.mem_filter.mp hp).2
    unfold keepPred at hk
    simp [hnz] at hk
    omega
  refine ⟨?_, ?_, ?_, ?_, ?_⟩
  · intro p hp
    rw [hitems, List.mem_filter]
    unfold keepPred remaining
    simp [hp]
  · intro p hp
    rw [hitems] at hp
    exact (List.mem_filter.mp hp).1
  · rw [harm]
    simp only [decide_eq_true_eq]
    constructor
    · intro hpos
      rcases smallestFold_zero now _ hkpos with ⟨h0, _⟩ | ⟨_, _, p, hp, hnz, _⟩
      · omega
      · exact ⟨p, by rw [hitems]; exact hp, hkposTTL p hp hnz⟩
    · rintro ⟨p, hp, hpos⟩
      rw [hitems] at hp
      rcases smallestFold_zero now _ hkpos with ⟨_, hall⟩ | ⟨h1, _, _⟩
      · have := hall p hp
        omega
      · exact h1
  · intro p hp hpos
    rw [hitems] at hp
    rw [hci]
    rcases smallestFold_zero now _ hkpos with ⟨_, hall⟩ | ⟨_, h2, _⟩
    · have := hall p hp
      omega
    · exact h2 p hp (by omega)
  · intro harmed
    rw [harm] at harmed
    simp only [decide_eq_true_eq] at harmed
    rcases smallestFold_zero now _ hkpos with ⟨h0, _⟩ | ⟨_, _, p, hp, hnz, he⟩
    · omega
    · exact ⟨p, by rw [hitems]; exact hp, hkposTTL p hp hnz, by rw [hci]; exact he⟩

/-- C2 witness: on a concrete table scanned at now = 100 the timer ends up
armed (an item with positive TTL survives). -/
theorem expireMemory_spec_witness :
    (c2Table.expireMemory 100).cleanupTimerArmed = true := by
  have h := expireMemory_spec c2Table 100 (by decide)
  exact h.2.2.1.mpr ⟨(cKeyD, c2ItemD), by decide, by decide⟩



/-! Claim C4. -/

/-- C4 counterexample: with the table's default (zero) memory TTL, a key
absent from memory but present on disk with deserializable content makes Get
return the not-found error even though the disk tier yields an item (the
item is invalid because its lifespan is 0), refuting the claimed iff, which
requires the disk copy to yield no item for not-found. -/
theorem get_notFound_despite_disk_item :
    ¬(((c4Table.Get 5 cKeyKey).1 = none) ↔
       (mapLookup c4Table.items cKeyKey = none ∧
        c4Table.diskLoader 5 cKeyKey = none ∧
        (c4Table.diskLoader 5 cKeyKey = none →
          ∀ dl, c4Table.dataLoader = some dl →
            ∀ i, dl cKeyKey = some i → i.IsValid = false))) := by
  intro hiff
  obtain ⟨_, h2, _⟩ := hiff.mp (by decide)
  exact absurd h2 (by decide)

/-- C4 (amended): Get returns the not-found error iff the key is absent from
memory, every item the disk tier yields is invalid, and — only when the disk
yields no item at all, since a disk item (valid or not) short-circuits the
loader — the optional data loader yields no valid item.  Otherwise the first
tier to satisfy the lookup wins: a memory hit is returned after KeepAlive; a
valid disk item is returned and promoted into memory, with a persistence
task enqueued again when the serializer yields bytes; a valid, not yet
expired loader item is likewise returned and promoted into memory, again
with a persistence task enqueued when the serializer yields bytes. -/
theorem get_three_tier (t : CacheTable Val) (now : Int) (key : String) :
    ((t.Get now key).1 = none ↔
       (mapLookup t.items key = none ∧
        (∀ i, t.diskLoader now key = some i → i.IsValid = false) ∧
        (t.diskLoader now key = none →
          ∀ dl, t.dataLoader = some dl →
            ∀ i, dl key = some i → i.IsValid = false))) ∧
    (∀ r, mapLookup t.items key = some r →
       (t.Get now key).1 = some (r.KeepAlive now)) ∧
    (∀ i, mapLookup t.items key = none → t.diskLoader now key = some i →
       i.IsValid = true →
       (t.Get now key).1 = some i ∧
       mapLookup (t.Get now key).2.items i.key = some i ∧
       (∀ b, t.toBytes i.data = some b →
         (t.Get now key).2.persistQueue = t.persistQueue ++ [(i.key, b)])) ∧
    (∀ dl i, mapLookup t.items key = none → t.diskLoader now key = none →
       t.dataLoader = some dl → dl key = some i → i.IsValid = true →
       (i.lifeSpan ≤ 0 ∨ now - i.accessedOn < i.lifeSpan) →
       (t.Get now key).1 = some i ∧
       mapLookup (t.Get now key).2.items i.key = some i ∧
       (∀ b, t.toBytes i.data = some b →
         (t.Get now key).2.persistQueue = t.persistQueue ++ [(i.key, b)])) := by
  cases hm : mapLookup t.items key with
  | some r =>
    have hget : (t.Get now key).1 = some (r.KeepAlive now) := get_mem_hit t now key r hm
    refine ⟨?_, ?_, ?_, ?_⟩
    · rw [hget]
      simp
    · intro r2 hr2
      have he : r = r2 := Option.some.inj hr2
      rw [← he]
      exact hget
    · intro i hmem hdisk hvalid
      simp at hmem
    · intro dl i hmem hdisk hdl hli hvalid hexp
      simp at hmem
  | none =>
    cases hd : t.diskLoader now key with
    | some i =>
      by_cases hv : i.IsValid = true
      · have hget2 : t.Get now key = (some (t.add now i).1, (t.add now i).2) := by
          unfold CacheTable.Get
          rw [hm, hd]
          simp only
          rw [if_pos hv]
        obtain ⟨hf1, hf2, hf3⟩ := diskLoader_fields t now key i hd
        have hpos : 0 < i.lifeSpan := by
          by_contra hneg
          unfold CacheItem.IsValid at hv
          rw [decide_eq_false hneg] at hv
          simp at hv
        have hsurv := add_lookup t now i (Or.inr (by omega))
        refine ⟨?_, ?_, ?_, ?_⟩
        · constructor
          · intro hnone
            rw [hget2] at hnone
            exact absurd hnone (by simp)
          · rintro ⟨_, hall, _⟩
            exact absurd (hall i rfl) (by simp [hv])
        · intro r hr
          simp at hr
        · intro i2 hmem hd2 hvalid2
          have he : i = i2 := Option.some.inj hd2
          rw [← he] at hvalid2 ⊢
          refine ⟨by rw [hget2]; rfl, by rw [hget2]; exact hsurv, ?_⟩
          intro b hb
          rw [hget2]
          exact add_queue_some t now i b hb
        · intro dl i2 hmem hdnone hdl hli hvalid2 hexp
          simp at hdnone
      · have hget2 : t.Get now key = (none, t) := by
          unfold CacheTable.Get
          rw [hm, hd]
          simp only
          rw [if_neg hv]
        have hvf : i.IsValid = false := by simpa using hv
        refine ⟨?_, ?_, ?_, ?_⟩
        · rw [hget2]
          constructor
          · intro _
            refine ⟨rfl, ?_, ?_⟩
            · intro i2 hd2
              have he : i = i2 := Option.some.inj hd2
              rw [← he]
              exact hvf
            · intro hdnone
              simp at hdnone
          · intro _
            rfl
        · intro r hr
          simp at hr
        · intro i2 hmem hd2 hvalid2
          have he : i = i2 := Option.some.inj hd2
          rw [← he] at hvalid2
          exact absurd hvalid2 hv
        · intro dl i2 hmem hdnone hdl hli hvalid2 hexp
          simp at hdnone
    | none =>
      cases hdl : t.dataLoader with
      | none =>
        have hget2 : t.Get now key = (none, t) := by
          unfold CacheTable.Get
          rw [hm, hd, hdl]
        refine ⟨?_, ?_, ?_, ?_⟩
        · rw [hget2]
          constructor
          · intro _
            refine ⟨rfl, ?_, ?_⟩
            · intro i2 hd2
              simp at hd2
            · intro _ dl2 hdl2
              simp at hdl2
          · intro _
            rfl
        · intro r hr
          simp at hr
        · intro i2 hmem hd2 hvalid2
          simp at hd2
        · intro dl2 i2 hmem hdnone hdl2 hli hvalid2 hexp
          simp at hdl2
      | some dl =>
        cases hli : dl key with
        | none =>
          have hget2 : t.Get now key = (none, t) := by
            unfold CacheTable.Get
            rw [hm, hd, hdl]
            simp only
            rw [hli]
          refine ⟨?_, ?_, ?_, ?_⟩
          · rw [hget2]
            constructor
            · intro _
              refine ⟨rfl, ?_, ?_⟩
              · intro i2 hd2
                simp at hd2
              · intro _ dl2 hdl2 i2 hli2
                have he : dl = dl2 := Option.some.inj hdl2
                rw [← he, hli] at hli2
                simp at hli2
            · intro _
              rfl
          · intro r hr
            simp at hr
          · intro i2 hmem hd2 hvalid2
            simp at hd2
          · intro dl2 i2 hmem hdnone hdl2 hli2 hvalid2 hexp
            have he : dl = dl2 := Option.some.inj hdl2
            rw [← he, hli] at hli2
            simp at hli2
        | some i =>
          by_cases hv : i.IsValid = true
          · have hget2 : t.Get now key = (some (t.add now i).1, (t.add now i).2) := by
              unfold CacheTable.Get
              rw [hm, hd, hdl]
              simp only
              rw [hli]
              simp only
              rw [if_pos hv]
            refine ⟨?_, ?_, ?_, ?_⟩
            · constructor
              · intro hnone
                rw [hget2] at hnone
                exact absurd hnone (by simp)
              · rintro ⟨_, _, hall⟩
                exact absurd (hall rfl dl rfl i hli) (by simp [hv])
            · intro r hr
              simp at hr
            · intro i2 hmem hd2 hvalid2
              simp at hd2
            · intro dl2 i2 hmem hdnone hdl2 hli2 hvalid2 hexp
              have he : dl = dl2 := Option.some.inj hdl2
              rw [← he, hli] at hli2
              have he2 : i = i2 := Option.some.inj hli2
              rw [← he2] at hexp ⊢
              have hsurv := add_lookup t now i hexp
              refine ⟨by rw [hget2]; rfl, by rw [hget2]; exact hsurv, ?_⟩
              intro b hb
              rw [hget2]
              exact add_queue_some t now i b hb
          · have hget2 : t.Get now key = (none, t) := by
              unfold CacheTable.Get
              rw [hm, hd, hdl]
              simp only
              rw [hli]
              simp only
              rw [if_neg hv]
            have hvf : i.IsValid = false := by simpa using hv
            refine ⟨?_, ?_, ?_, ?_⟩
            · rw [hget2]
              constructor
              · intro _
                refine ⟨rfl, ?_, ?_⟩
                · intro i2 hd2
                  simp at hd2
                · intro _ dl2 hdl2 i2 hli2
                  have he : dl = dl2 := Option.some.inj hdl2
                  rw [← he, hli] at hli2
                  have he2 : i = i2 := Option.some.inj hli2
                  rw [← he2]
                  exact hvf
              · intro _
                rfl
            · intro r hr
              simp at hr
            · intro i2 hmem hd2 hvalid2
              simp at hd2
            · intro dl2 i2 hmem hdnone hdl2 hli2 hvalid2 hexp
              have he : dl = dl2 := Option.some.inj hdl2
              rw [← he, hli] at hli2
              have he2 : i = i2 := Option.some.inj hli2
              rw [← he2] at hvalid2
              exact absurd hvalid2 hv

/-- C4 witness: a concrete memory hit is returned kept-alive. -/
theorem get_three_tier_witness :
    (c4wTable.Get 0 cKeyK).1 = some (c4wItem.KeepAlive 0) :=
  (get_three_tier c4wTable 0 cKeyK).2.1 c4wItem (by decide)


/-! Claim C8. -/

/-- Hex encoding yields two characters per byte. -/
theorem hexEncode_length (bs : Bytes) :
    (hexEncodeToString bs).length = 2 * bs.length := by
  induction bs with
  | nil => rfl
  | cons b bs ih =>
    have hcons : (hexEncodeToString (b :: bs)).length
        = (hexEncodeToString bs).length + 2 := rfl
    rw [hcons, ih, List.length_cons]
    omega

/-- C8: the on-disk file path of a key is
`basePath / h[0:1] / h[1:3] / key` where `h` is the hex encoding of the
128-bit digest of the key (32 hex characters): the first hex character and
the next two name the shard directories, and the file name is the literal
key itself. -/
theorem getFilePath_layout (t : CacheTable Val) (key : String)
    (h : (t.hash key).length = 16) :
    t.getFilePath key =
      specFilePath t.basePath (hexEncodeToString (t.hash key)) key ∧
    (hexEncodeToString (t.hash key)).length = 32 := by
  constructor
  · unfold CacheTable.getFilePath CacheTable.getPath specFilePath strSlice
    simp
  · rw [hexEncode_length, h]

/-- C8 witness at a concrete table and key. -/
theorem getFilePath_layout_witness :
    emptyTableN.getFilePath cKeyK =
      specFilePath emptyTableN.basePath
        (hexEncodeToString (emptyTableN.hash cKeyK)) cKeyK ∧
    (hexEncodeToString (emptyTableN.hash cKeyK)).length = 32 :=
  getFilePath_layout emptyTableN cKeyK (by decide)

/-! Claim C10. -/

theorem keysConsistent_mem {l : List (String × CacheItem Val)}
    (h : keysConsistent l = true) {p : String × CacheItem Val} (hp : p ∈ l) :
    p.2.key = p.1 := by
  unfold keysConsistent at h
  rw [List.all_eq_true] at h
  simpa using h p hp

theorem keysConsistent_insert {l : List (String × CacheItem Val)}
    (h : keysConsistent l = true) (k : String) (v : CacheItem Val)
    (hv : v.key = k) : keysConsistent (mapInsert k v l) = true := by
  unfold keysConsistent at h ⊢
  rw [List.all_eq_true] at h ⊢
  intro p hp
  rcases List.mem_cons.mp hp with heq | hp2
  · rw [heq]
    simpa using hv
  · exact h p (List.mem_of_mem_filter hp2)

theorem keysConsistent_filter {l : List (String × CacheItem Val)}
    (h : keysConsistent l = true) (q : String × CacheItem Val → Bool) :
    keysConsistent (l.filter q) = true := by
  unfold keysConsistent at h ⊢
  rw [List.all_eq_true] at h ⊢
  intro p hp
  exact h p (List.mem_of_mem_filter hp)

theorem keysConsistent_add (t : CacheTable Val) (now : Int)
    (item : CacheItem Val) (h : keysConsistent t.items = true) :
    keysConsistent (t.add now item).2.items = true := by
  unfold CacheTable.add
  rw [addPersist_items]
  unfold CacheTable.addExpire
  split
  · show keysConsistent
      ((mapInsert item.key item t.items).filter (keepPred now)) = true
    exact keysConsistent_filter (keysConsistent_insert h item.key item rfl) _
  · exact keysConsistent_insert h item.key item rfl

theorem keysConsistent_get (t : CacheTable Val) (now : Int) (key : String)
    (h : keysConsistent t.items = true) :
    keysConsistent (t.Get now key).2.items = true := by
  cases hm : mapLookup t.items key with
  | some r =>
    have hpair : t.Get now key =
        (some (r.KeepAlive now),
         { t with items := mapInsert key (r.KeepAlive now) t.items }) := by
      unfold CacheTable.Get
      rw [hm]
    rw [hpair]
    have hk : r.key = key := keysConsistent_mem h (mapLookup_mem hm)
    refine keysConsistent_insert h key (r.KeepAlive now) ?_
    unfold CacheItem.KeepAlive
    simpa using hk
  | none =>
    cases hd : t.diskLoader now key with
    | some i =>
      by_cases hv : i.IsValid = true
      · have hpair : t.Get now key = (some (t.add now i).1, (t.add now i).2) := by
          unfold CacheTable.Get
          rw [hm, hd]
          simp only
          rw [if_pos hv]
        rw [hpair]
        exact keysConsistent_add t now i h
      · have hpair : t.Get now key = (none, t) := by
          unfold CacheTable.Get
          rw [hm, hd]
          simp only
          rw [if_neg hv]
        rw [hpair]
        exact h
    | none =>
      cases hdl : t.dataLoader with
      | none =>
        have hpair : t.Get now key = (none, t) := by
          unfold CacheTable.Get
          rw [hm, hd, hdl]
        rw [hpair]
        exact h
      | some dl =>
        cases hli : dl key with
        | none =>
          have hpair : t.Get now key = (none, t) := by
            unfold CacheTable.Get
            rw [hm, hd, hdl]
            simp only
            rw [hli]
          rw [hpair]
          exact h
        | some i =>
          by_cases hv : i.IsValid = true
          · have hpair : t.Get now key = (some (t.add now i).1, (t.add now i).2) := by
              unfold CacheTable.Get
              rw [hm, hd, hdl]
              simp only
              rw [hli]
              simp only
              rw [if_pos hv]
            rw [hpair]
            exact keysConsistent_add t now i h
          · have hpair : t.Get now key = (none, t) := by
              unfold CacheTable.Get
              rw [hm, hd, hdl]
              simp only
              rw [hli]
              simp only
              rw [if_neg hv]
            rw [hpair]
            exact h

theorem foldl_preserve {α β : Type} (g : β → α → β) (P : β → Prop)
    (hg : ∀ b a, P b → P (g b a)) :
    ∀ (l : List α) (s : β), P s → P (List.foldl g s l) := by
  intro l
  induction l with
  | nil => intro s hs; exact hs
  | cons a l ih =>
    intro s hs
    exact ih _ (hg s a hs)

theorem keysConsistent_loadStep (acc : CacheTable Val) (now : Int)
    (key : String) (hacc : keysConsistent acc.items = true) :
    keysConsistent (match acc.diskLoader now key with
      | some item => { acc with items := mapInsert key item acc.items }
      | none => acc).items = true := by
  cases hdli : acc.diskLoader now key with
  | none => simpa using hacc
  | some item =>
    simp only
    exact keysConsistent_insert hacc key item
      (diskLoader_fields acc now key item hdli).1

theorem keysConsistent_loadCache (t : CacheTable Val) (now maxAge : Int)
    (h : keysConsistent t.items = true) :
    keysConsistent (t.loadCache now maxAge).items = true := by
  unfold CacheTable.loadCache CacheTable.walk
  refine keysConsistent_filter ?_ _
  refine foldl_preserve _ (fun tb => keysConsistent tb.items = true) ?_ t.disk t h
  intro acc p hacc
  cases hw : walkKeyOfPath p.1 with
  | none =>
    simpa using hacc
  | some key =>
    simp only
    split <;> split <;>
      first
        | exact keysConsistent_loadStep acc now key hacc
        | simpa using hacc

/-- C10: every mutation of the in-memory mapping — add, AddExpiry,
NotFoundAddExpiry, Get (including its disk/loader promotion), delete,
flushMemory, loadCache — preserves the invariant that each stored item's
own key field equals the mapping key it is stored under. -/
theorem items_key_invariant_preserved (t : CacheTable Val)
    (now maxAge lifeSpan : Int) (key : String) (data : Option Val)
    (item : CacheItem Val) (h : keysConsistent t.items = true) :
    keysConsistent (t.add now item).2.items = true ∧
    keysConsistent (t.AddExpiry now key lifeSpan data).2.items = true ∧
    keysConsistent (t.NotFoundAddExpiry now key lifeSpan data).2.items = true ∧
    keysConsistent (t.Get now key).2.items = true ∧
    keysConsistent (t.delete key).items = true ∧
    keysConsistent t.flushMemory.items = true ∧
    keysConsistent (t.loadCache now maxAge).items = true := by
  refine ⟨keysConsistent_add t now item h, ?_, ?_,
    keysConsistent_get t now key h, ?_, rfl,
    keysConsistent_loadCache t now maxAge h⟩
  · unfold CacheTable.AddExpiry
    split
    · exact keysConsistent_add t now _ h
    · exact h
  · unfold CacheTable.NotFoundAddExpiry
    split
    · exact h
    · exact keysConsistent_add t now _ h
  · exact keysConsistent_filter h _

/-- C10 witness at a concrete table and arguments. -/
theorem items_key_invariant_witness :
    keysConsistent (emptyTableN.add 0 c10Item).2.items = true ∧
    keysConsistent (emptyTableN.AddExpiry 0 cKeyK 5 (some 1)).2.items = true ∧
    keysConsistent (emptyTableN.NotFoundAddExpiry 0 cKeyK 5 (some 1)).2.items = true ∧
    keysConsistent (emptyTableN.Get 0 cKeyK).2.items = true ∧
    keysConsistent (emptyTableN.delete cKeyK).items = true ∧
    keysConsistent emptyTableN.flushMemory.items = true ∧
    keysConsistent (emptyTableN.loadCache 0 0).items = true :=
  items_key_invariant_preserved emptyTableN 0 0 5 cKeyK (some 1) c10Item rfl

/-! Claim C3. -/

/-- C3 (code bug): for the file the persistence path wrote for key "key"
(shard directories "3" and "c6" from md5("key") =
3c6e0b8a9c15224a8228b9a98ca1531d, so the path is cache/t/3/c6/key), the
walk hands its visitor the string "3/c6/key" — the remainder of the path
after its first two separator-delimited segments, because walk splits the
whole path with SplitN(path, separator, 3) and takes the third piece —
instead of the original key "key".  The modification time is reported
correctly. -/
theorem walk_misreconstructs_key :
    c3Stored.walkEntries = [(cWrongKey, (100 : Int))] ∧ cWrongKey ≠ cKeyKey := by
  refine ⟨by decide, by decide⟩

/-! Claim C7. -/

/-- C7 (code bug): a disk-expiry sweep at now = 200 with max-age 50 counts
the stored file for "key" (modification time 0, older than the cutoff 150)
as expired, yet deletes neither the file nor the corresponding in-memory
entry: the deletion runs on the mis-reconstructed key "3/c6/key", whose
derived path does not exist.  Only the re-arming of the disk-expiry timer
behaves as claimed. -/
theorem expireDisk_misses_expired_file :
    (c7Table.ExpireDiskMaxAge 200 50).1 = 1 ∧
    (c7Table.ExpireDiskMaxAge 200 50).2.disk = c7Table.disk ∧
    mapLookup (c7Table.ExpireDiskMaxAge 200 50).2.items cKeyKey = some c7Item ∧
    (c7Table.ExpireDiskMaxAge 200 50).2.diskExpiryTimerArmed = true := by
  refine ⟨by decide, by decide, by decide, by decide⟩

end Filecache
